import Mathlib

/-!
Verification of the FPV_Python repository.

Shallow embedding of the two files the claims refer to:
  * `crsf_reader.py`  — CRC engine, frame synchronizer/assembler + validator,
    channel unpacker, unit converter, reporter (rate-limited printing loop);
  * `ESC_Speed_Ramp_wSafety.py` — throttle percentage to pulse-width mapper.

Bytes are modelled as `Nat` values `< 256`; the UART byte stream is a
`List Nat` where `read(n)` yields `take n` (fewer bytes than requested model a
timeout/short read, exactly as MicroPython's `uart.read` may deliver).
Python floats: every float expression in `ticks_to_us` is a dyadic rational
(division by 8 only) and therefore exact, so the embedding uses `ℚ` with
truncation toward zero for Python's `int(...)`.  Python `//` on integers is
floor division, modelled by `Int.fdiv`.
-/

/-! ### Constants (crsf_reader.py lines 14-17, ESC_Speed_Ramp_wSafety.py lines 5-12) -/

def CRSF_SYNC : Nat := 0xC8

def TYPE_RC_CHANNELS : Nat := 0x16

def MAX_FRAME : Nat := 64

def MIN_US : Int := 1000

def MAX_US : Int := 2000

/-! ### CRC engine (crsf_reader.py lines 20-30) -/

/-- One iteration of the inner `for _ in range(8)` loop of `crc8_d5`:
`crc = ((crc << 1) ^ poly) & 0xFF` when the high bit is set, else
`crc = (crc << 1) & 0xFF`. -/
def crc8_shift (crc : Nat) : Nat :=
  if crc &&& 0x80 ≠ 0 then ((crc <<< 1) ^^^ 0xD5) &&& 0xFF
  else (crc <<< 1) &&& 0xFF

/-- Body of the outer `for b in buf` loop: `crc ^= b` followed by the eight
shift steps. -/
def crc8_byte (crc b : Nat) : Nat := crc8_shift^[8] (crc ^^^ b)

/-- `crc8_d5(buf)` from the source: fold of `crc8_byte` starting at `0x00`. -/
def crc8_d5 (buf : List Nat) : Nat := buf.foldl crc8_byte 0

/-- Spec-side rendering of the CRC step (§4.2 / C3): shift left keeping 8
bits, XOR-ing the polynomial 0xD5 when the (pre-shift) high bit is set. -/
def crc8_spec_shift (crc : Nat) : Nat :=
  if crc.testBit 7 then ((crc * 2) % 256) ^^^ 0xD5 else (crc * 2) % 256

/-- Spec-side rendering of the whole CRC (§4.2 / C3): XOR each byte into the
accumulator, then apply eight shift steps; initial accumulator 0. -/
def crc8_spec (buf : List Nat) : Nat :=
  buf.foldl (fun crc b => crc8_spec_shift^[8] (crc ^^^ b)) 0

/-! ### Unit converter (crsf_reader.py lines 33-38) -/

/-- Python `int(q)`: truncation of a rational toward zero. -/
def ratTrunc (q : ℚ) : ℤ := Int.tdiv q.num (q.den : ℤ)

/-- `ticks_to_us(t) = int((t - 992) * 5 / 8 + 1500)`.  All intermediate float
values are dyadic rationals of magnitude far below `2^53`, hence exact. -/
def ticks_to_us (t : ℤ) : ℤ := ratTrunc (((t : ℚ) - 992) * 5 / 8 + 1500)

/-- `ticks_to_unit(t) = max(-1.0, min(1.0, (us - 1500) / 500.0))`.  Modelled
over `ℚ`; at the tick values the claims evaluate (0, 992, 2047) the float
computation either is exact or is clamped, so the `ℚ` model agrees with the
Python float result there. -/
def ticks_to_unit (t : ℤ) : ℚ :=
  max (-1) (min 1 (((ticks_to_us t : ℚ) - 1500) / 500))

/-! ### Channel unpacker (crsf_reader.py lines 41-55) -/

/-- The inner `while bits >= 11 and len(out) < 16` loop: extract the low 11
bits of the accumulator as the next channel and shift it right by 11. -/
def drainBits (bits bitbuf : Nat) (out : List Nat) : Nat × Nat × List Nat :=
  if _h : 11 ≤ bits ∧ out.length < 16 then
    drainBits (bits - 11) (bitbuf >>> 11) (out ++ [bitbuf &&& 0x7FF])
  else
    (bits, bitbuf, out)
termination_by bits
decreasing_by omega

/-- The outer `for b in payload22` loop: merge each byte into the bit
accumulator (`bitbuf |= b << bits; bits += 8`) and drain complete channels. -/
def unpackLoop : List Nat → Nat → Nat → List Nat → List Nat
  | [], _, _, out => out
  | b :: rest, bits, bitbuf, out =>
    let s := drainBits (bits + 8) (bitbuf ||| (b <<< bits)) out
    unpackLoop rest s.1 s.2.1 s.2.2

/-- `unpack_16ch_11bit(payload22)`: run the loop, then pad with the neutral
tick 992 until 16 entries (`while len(out) < 16: out.append(992)`) and take
`out[:16]`. -/
def unpack_16ch_11bit (payload22 : List Nat) : List Nat :=
  let out := unpackLoop payload22 0 0 []
  (out ++ List.replicate (16 - out.length) 992).take 16

/-- Little-endian value of a byte string (bit `k` of the stream is bit `k` of
this number); used to state what the unpacker extracts. -/
def streamNum : List Nat → Nat
  | [] => 0
  | b :: rest => b + 256 * streamNum rest

/-- The first `k` 11-bit fields of the number `N`, low bits first. -/
def chans (k N : Nat) : List Nat :=
  (List.range k).map (fun i => (N >>> (11 * i)) &&& 0x7FF)

/-- Little-endian base-2048 value of a channel list: the 176-bit stream that
a channel set occupies under the §4.4 packing scheme. -/
def chsNum : List Nat → Nat
  | [] => 0
  | c :: rest => c + 2048 * chsNum rest

/-- Modelled from the spec (§8 round-trip law, C4): the repository contains
only the unpacker, so the packer is the spec's "inverse of §4.4's scheme" —
lay the sixteen 11-bit fields end to end little-endian and serialize the
resulting 176-bit number as 22 little-endian bytes. -/
def pack_16ch_11bit (chs : List Nat) : List Nat :=
  (List.range 22).map (fun j => (chsNum chs >>> (8 * j)) &&& 0xFF)

/-! ### Frame synchronizer/assembler + validator (crsf_reader.py lines 60-89) -/

/-- `read_frame` after the sync byte has been consumed: read the length byte,
bound-check it, read the `length`-byte body (a short read is a reject), split
it into type / payload / checksum and validate the CRC. -/
def read_after_sync (s : List Nat) : Option (Nat × List Nat) :=
  match s with
  | [] => none
  | lb :: rest =>
    if lb < 2 ∨ MAX_FRAME - 2 < lb then none
    else
      let body := rest.take lb
      if body.length ≠ lb then none
      else
        let frame_type := body.headD 0
        let payload := body.tail.dropLast
        let crc := body.getLastD 0
        if crc8_d5 (frame_type :: payload) = crc then some (frame_type, payload)
        else none

/-- `read_frame()`: hunt for the sync marker byte-by-byte (an empty read is a
"no frame" signal), then assemble and validate.  The result is `none` for
"no frame" or `some (frame_type, payload)`. -/
def read_frame : List Nat → Option (Nat × List Nat)
  | [] => none
  | b :: rest => if b = CRSF_SYNC then read_after_sync rest else read_frame rest

/-! ### Reporter (crsf_reader.py lines 110-115) -/

/-- The rate-limiting print logic of the main loop, folded over a trace of
decoded channel sets tagged with their arrival times (`time.ticks_ms()`
modelled as a monotone `Nat` clock, so `ticks_diff now last = now - last`):
emit and update `last_print` only when `ticks_diff(now, last_print) > 50`. -/
def reporterRun (last : Nat) : List (Nat × List Nat) → List (Nat × List Nat)
  | [] => []
  | e :: rest =>
    if 50 < e.1 - last then e :: reporterRun e.1 rest else reporterRun last rest

/-! ### Throttle setter (ESC_Speed_Ramp_wSafety.py lines 25-31) -/

/-- `set_percent(percent)`: clamp into `0..100`, then
`us = MIN_US + (MAX_US - MIN_US) * percent // 100` (Python `//` is floor
division).  Returns the pulse width in microseconds. -/
def set_percent (percent : Int) : Int :=
  let p1 := if percent < 0 then 0 else percent
  let p2 := if 100 < p1 then 100 else p1
  MIN_US + Int.fdiv ((MAX_US - MIN_US) * p2) 100

/-! ## Theorems -/

/-! ### CRC: source step = spec step (C3) -/

theorem and_128_eq (c : Nat) : c &&& 0x80 = if c.testBit 7 = true then 0x80 else 0 := by
  have h1287 : Nat.testBit 0x80 7 = true := by decide
  have h128ne : ∀ j, j ≠ 7 → Nat.testBit 0x80 j = false := by
    intro j hj
    have h2 : (0x80 : Nat) = 2 ^ 7 := by norm_num
    rw [h2]
    exact Nat.testBit_two_pow_of_ne fun hh => hj hh.symm
  apply Nat.eq_of_testBit_eq
  intro i
  rw [Nat.testBit_and]
  by_cases hi : i = 7
  · subst hi
    cases hb : c.testBit 7
    · simp [hb]
    · simp [hb, h1287]
  · rw [h128ne i hi, Bool.and_false]
    cases hb : c.testBit 7
    · simp [hb]
    · simp [hb, h128ne i hi]

theorem and_255_eq_mod (x : Nat) : x &&& 0xFF = x % 256 := by
  have h : (0xFF : Nat) = 2 ^ 8 - 1 := by norm_num
  rw [h, Nat.and_pow_two_sub_one_eq_mod]

theorem crc8_shift_eq_spec (c : Nat) : crc8_shift c = crc8_spec_shift c := by
  unfold crc8_shift crc8_spec_shift
  have hshift : c <<< 1 = c * 2 := by
    rw [Nat.shiftLeft_eq]
  by_cases h : c.testBit 7 = true
  · rw [if_pos (by rw [and_128_eq, if_pos h]; norm_num), if_pos h,
      Nat.and_xor_distrib_right, and_255_eq_mod, hshift,
      show (0xD5 &&& 0xFF : Nat) = 0xD5 from by decide]
  · rw [if_neg (by rw [and_128_eq, if_neg h]; norm_num), if_neg h,
      and_255_eq_mod, hshift]

/-- C3: `crc8_d5` computes the reference bit-serial CRC-8 (polynomial 0xD5,
initial accumulator 0): it equals the fold that XORs each byte into the
accumulator and applies eight shift steps, each shifting left and
conditionally XOR-ing the polynomial when the high bit is set, keeping
8 bits. -/
theorem crc8_d5_matches_reference (buf : List Nat) : crc8_d5 buf = crc8_spec buf := by
  have hb : crc8_byte = fun crc b => crc8_spec_shift^[8] (crc ^^^ b) := by
    funext crc b
    rw [crc8_byte, funext crc8_shift_eq_spec]
  rw [crc8_d5, crc8_spec, hb]

/-! ### Unit converter (C1) -/

theorem ratTrunc_eq_floor (q : ℚ) (h : 0 ≤ q) : ratTrunc q = ⌊q⌋ := by
  rw [ratTrunc, Rat.floor_def,
    Int.tdiv_eq_ediv (Rat.num_nonneg.mpr h) (Int.ofNat_nonneg q.den)]

theorem ticks_to_us_zero : ticks_to_us 0 = 880 := by
  have hq : (((0 : ℤ) : ℚ) - 992) * 5 / 8 + 1500 = ((880 : ℤ) : ℚ) := by norm_num
  rw [ticks_to_us, hq, ratTrunc_eq_floor _ (by norm_num), Int.floor_intCast]

theorem ticks_to_us_top : ticks_to_us 2047 = 2159 := by
  have hq : (((2047 : ℤ) : ℚ) - 992) * 5 / 8 + 1500 = 17275 / 8 := by norm_num
  rw [ticks_to_us, hq, ratTrunc_eq_floor _ (by norm_num), Int.floor_eq_iff]
  norm_num

/-- C1 counterexample: the claim asserts `microseconds == 875` for tick 0,
but the source computes `int((0 - 992) * 5 / 8 + 1500) = 880` (and `2159`,
not `2156.875`, for tick 2047). -/
theorem ticks_to_us_zero_not_875 : ticks_to_us 0 = 880 ∧ ticks_to_us 0 ≠ 875 := by
  rw [ticks_to_us_zero]
  exact ⟨rfl, by norm_num⟩

/-- C1 (amended): for tick 0 the converter returns 880 µs and a clamped unit
of -1.0; for tick 2047 it returns 2159 µs (truncation of 2159.375) and a
clamped unit of 1.0. -/
theorem unit_converter_endpoints :
    ticks_to_us 0 = 880 ∧ ticks_to_unit 0 = -1 ∧
    ticks_to_us 2047 = 2159 ∧ ticks_to_unit 2047 = 1 := by
  refine ⟨ticks_to_us_zero, ?_, ticks_to_us_top, ?_⟩
  · rw [ticks_to_unit, ticks_to_us_zero]
    norm_num
  · rw [ticks_to_unit, ticks_to_us_top]
    norm_num

/-! ### Throttle setter (C9, C10) -/

theorem set_percent_exact (p : Int) (h0 : 0 ≤ p) (h1 : p ≤ 100) :
    set_percent p = 1000 + 10 * p := by
  simp only [set_percent, MIN_US, MAX_US]
  rw [if_neg (by omega), if_neg (by omega)]
  have h : (2000 - 1000 : Int) * p = 100 * (10 * p) := by ring
  rw [h, Int.mul_fdiv_cancel_left _ (by norm_num)]

/-- C9: for a percentage in 0..100 the throttle setter produces exactly
`MIN_US + (MAX_US - MIN_US) * percent / 100` microseconds — the division is
exact, so this equals `1000 + 10 * percent`. -/
theorem set_percent_linear (p : Int) (h0 : 0 ≤ p) (h1 : p ≤ 100) :
    100 * (set_percent p - MIN_US) = (MAX_US - MIN_US) * p ∧
    set_percent p = 1000 + 10 * p := by
  have h := set_percent_exact p h0 h1
  rw [h]
  simp only [MIN_US, MAX_US]
  exact ⟨by ring, trivial⟩

theorem set_percent_linear_witness :
    (0 : Int) ≤ 50 ∧ (50 : Int) ≤ 100 ∧
    (100 * (set_percent 50 - MIN_US) = (MAX_US - MIN_US) * 50 ∧
      set_percent 50 = 1000 + 10 * 50) :=
  ⟨by norm_num, by norm_num, set_percent_linear 50 (by norm_num) (by norm_num)⟩

/-- C10: for every integer percentage, `set_percent` first clamps into
0..100, so the produced pulse width always lies in [1000, 2000] µs. -/
theorem set_percent_clamps (p : Int) :
    set_percent p = set_percent (max 0 (min 100 p)) ∧
    1000 ≤ set_percent p ∧ set_percent p ≤ 2000 := by
  have key : ∀ q : Int, 0 ≤ q → q ≤ 100 → set_percent q = 1000 + 10 * q :=
    fun q hq0 hq1 => set_percent_exact q hq0 hq1
  by_cases hneg : p < 0
  · have h1 : set_percent p = 1000 := by
      simp only [set_percent, MIN_US, MAX_US]
      rw [if_pos hneg, if_neg (by norm_num)]
      decide
    have h2 : max 0 (min 100 p) = 0 := by omega
    rw [h1, h2, key 0 (by norm_num) (by norm_num)]
    norm_num
  · by_cases hbig : 100 < p
    · have h1 : set_percent p = 2000 := by
        simp only [set_percent, MIN_US, MAX_US]
        rw [if_neg hneg, if_pos hbig]
        decide
      have h2 : max 0 (min 100 p) = 100 := by omega
      rw [h1, h2, key 100 (by norm_num) (by norm_num)]
      norm_num
    · have h2 : max 0 (min 100 p) = p := by omega
      rw [h2, key p (by omega) (by omega)]
      exact ⟨rfl, by omega, by omega⟩

/-! ### Frame assembler: length gate (C2) and CRC gate (C6) -/

theorem read_frame_skip (pre s : List Nat) (hpre : ∀ b ∈ pre, b ≠ CRSF_SYNC) :
    read_frame (pre ++ CRSF_SYNC :: s) = read_after_sync s := by
  induction pre with
  | nil => simp [read_frame]
  | cons b bs ih =>
    have hb : b ≠ CRSF_SYNC := hpre b (by simp)
    simp only [List.cons_append, read_frame, if_neg hb]
    exact ih fun x hx => hpre x (by simp [hx])

theorem crc8_d5_zeros (n : Nat) : crc8_d5 (List.replicate n 0) = 0 := by
  have hstep : crc8_byte 0 0 = 0 := by decide
  induction n with
  | zero => rfl
  | succ k ih =>
    rw [List.replicate_succ]
    unfold crc8_d5 at ih ⊢
    rw [List.foldl_cons, hstep]
    exact ih

theorem read_after_sync_framed (t c : Nat) (mid tail : List Nat)
    (hmid : mid.length ≤ 60) :
    read_after_sync ((mid.length + 2) :: ((t :: mid ++ [c]) ++ tail))
      = if crc8_d5 (t :: mid) = c then some (t, mid) else none := by
  have hlen : (t :: mid ++ [c]).length = mid.length + 2 := by simp
  have hbody : ((t :: mid ++ [c]) ++ tail).take (mid.length + 2) = t :: mid ++ [c] :=
    List.take_left' hlen
  simp only [read_after_sync]
  rw [if_neg (by simp only [MAX_FRAME]; omega), hbody]
  rw [if_neg (by rw [hlen]; omega)]
  have h1 : (t :: mid ++ [c]).headD 0 = t := rfl
  have h2 : (t :: mid ++ [c]).tail.dropLast = mid := by
    simp only [List.cons_append, List.tail_cons, List.dropLast_concat]
  have h3 : (t :: mid ++ [c]).getLastD 0 = c := by
    have h : (t :: mid ++ [c]) = (t :: mid) ++ [c] := by simp
    rw [h, List.getLastD_concat]
  rw [h1, h2, h3]

/-- C2 counterexample: the claim says a frame is produced only when the
length byte is at most 61, but the source accepts `length ≤ MAX_FRAME - 2
= 62`: a stream with length byte 62 and a CRC-valid 62-byte body yields a
frame. -/
theorem read_frame_accepts_length_62 :
    read_frame (CRSF_SYNC :: 62 :: List.replicate 62 0) =
      some (0, List.replicate 60 0) := by
  have hshape : List.replicate 62 (0 : Nat)
      = (0 :: List.replicate 60 0 ++ [0]) ++ [] := by
    rw [List.append_nil, List.replicate_succ' 61 0, List.replicate_succ]
  have h62 : (62 : Nat) = (List.replicate 60 (0 : Nat)).length + 2 := by simp
  rw [hshape, h62]
  show read_frame (CRSF_SYNC :: ((List.replicate 60 (0 : Nat)).length + 2)
    :: ((0 :: List.replicate 60 0 ++ [0]) ++ [])) = some (0, List.replicate 60 0)
  simp only [read_frame, if_pos]
  rw [read_after_sync_framed 0 0 (List.replicate 60 0) [] (by simp)]
  rw [if_pos (by rw [show (0 : Nat) :: List.replicate 60 0 = List.replicate 61 0
    from (List.replicate_succ 0 60).symm, crc8_d5_zeros])]

/-- C2 (amended): the frame assembler returns a raw frame only when the
length byte L satisfies 2 ≤ L ≤ 62 (= MAX_FRAME - 2); for every length byte
outside that range it signals "no frame" without producing a frame. -/
theorem read_frame_length_gate (pre rest : List Nat) (L : Nat)
    (hpre : ∀ b ∈ pre, b ≠ CRSF_SYNC) :
    ((L < 2 ∨ 62 < L) → read_frame (pre ++ CRSF_SYNC :: L :: rest) = none) ∧
    (read_frame (pre ++ CRSF_SYNC :: L :: rest) ≠ none → 2 ≤ L ∧ L ≤ 62) := by
  have hgate : (L < 2 ∨ 62 < L) → read_frame (pre ++ CRSF_SYNC :: L :: rest) = none := by
    intro hL
    rw [read_frame_skip pre _ hpre]
    simp only [read_after_sync]
    rw [if_pos (by simp only [MAX_FRAME]; omega)]
  refine ⟨hgate, fun hne => ?_⟩
  by_contra hcon
  exact hne (hgate (by omega))

theorem read_frame_length_gate_witness :
    (∀ b ∈ ([] : List Nat), b ≠ CRSF_SYNC) ∧
    (((63 < 2 ∨ 62 < 63) → read_frame ([] ++ CRSF_SYNC :: 63 :: []) = none) ∧
      (read_frame ([] ++ CRSF_SYNC :: 63 :: []) ≠ none → 2 ≤ 63 ∧ 63 ≤ 62)) :=
  ⟨by simp, read_frame_length_gate [] [] 63 (by simp)⟩

/-- C6: on a complete, correctly framed stream the decoder returns the frame
if and only if `crc8` over the type byte followed by the payload equals the
trailing checksum byte; with a corrupted checksum it returns no frame (and
hence no Channel Set is produced). -/
theorem read_frame_crc_gate (t c : Nat) (mid tail : List Nat)
    (hmid : mid.length ≤ 60) :
    (read_frame (CRSF_SYNC :: (mid.length + 2) :: (t :: mid ++ [c]) ++ tail)
        = some (t, mid) ↔ crc8_d5 (t :: mid) = c) ∧
    (crc8_d5 (t :: mid) ≠ c →
      read_frame (CRSF_SYNC :: (mid.length + 2) :: (t :: mid ++ [c]) ++ tail)
        = none) := by
  have hstep :
      read_frame (CRSF_SYNC :: (mid.length + 2) :: (t :: mid ++ [c]) ++ tail)
        = if crc8_d5 (t :: mid) = c then some (t, mid) else none := by
    simp only [read_frame, if_pos]
    exact read_after_sync_framed t c mid tail hmid
  rw [hstep]
  constructor
  · constructor
    · intro hsome
      by_contra hcrc
      rw [if_neg hcrc] at hsome
      exact Option.noConfusion hsome
    · intro hcrc
      rw [if_pos hcrc]
  · intro hcrc
    rw [if_neg hcrc]

theorem read_frame_crc_gate_witness :
    ([] : List Nat).length ≤ 60 ∧
    ((read_frame (CRSF_SYNC :: (([] : List Nat).length + 2) :: (0 :: [] ++ [0]) ++ [])
        = some (0, []) ↔ crc8_d5 (0 :: []) = 0) ∧
      (crc8_d5 (0 :: []) ≠ 0 →
        read_frame (CRSF_SYNC :: (([] : List Nat).length + 2) :: (0 :: [] ++ [0]) ++ [])
          = none)) :=
  ⟨by simp, read_frame_crc_gate 0 0 [] [] (by simp)⟩

/-! ### Reporter rate limiting (C7) -/

theorem reporterRun_sublist (trace : List (Nat × List Nat)) :
    ∀ last, List.Sublist (reporterRun last trace) trace := by
  induction trace with
  | nil => intro last; exact List.Sublist.refl _
  | cons e rest ih =>
    intro last
    simp only [reporterRun]
    by_cases h : 50 < e.1 - last
    · rw [if_pos h]
      exact List.Sublist.cons₂ e (ih e.1)
    · rw [if_neg h]
      exact List.Sublist.cons e (ih last)

theorem reporterRun_head_ge (trace : List (Nat × List Nat)) :
    ∀ last x l', reporterRun last trace = x :: l' → last + 51 ≤ x.1 := by
  induction trace with
  | nil => intro last x l' h; simp [reporterRun] at h
  | cons e rest ih =>
    intro last x l' h
    simp only [reporterRun] at h
    by_cases hc : 50 < e.1 - last
    · rw [if_pos hc] at h
      cases h
      omega
    · rw [if_neg hc] at h
      exact ih last x l' h

theorem reporterRun_chain (trace : List (Nat × List Nat)) :
    ∀ last, List.Chain' (fun a b : Nat × List Nat => a.1 + 51 ≤ b.1)
      (reporterRun last trace) := by
  induction trace with
  | nil => intro last; simp [reporterRun]
  | cons e rest ih =>
    intro last
    simp only [reporterRun]
    by_cases hc : 50 < e.1 - last
    · rw [if_pos hc, List.chain'_cons']
      refine ⟨?_, ih e.1⟩
      intro y hy
      cases hr : reporterRun e.1 rest with
      | nil => rw [hr] at hy; simp at hy
      | cons z zs =>
        rw [hr] at hy
        simp only [List.head?_cons, Option.mem_some_iff] at hy
        subst hy
        exact reporterRun_head_ge rest e.1 z zs hr
    · rw [if_neg hc]
      exact ih last

theorem chain_sep_all (x : Nat × List Nat) (l : List (Nat × List Nat))
    (h : List.Chain' (fun a b : Nat × List Nat => a.1 + 51 ≤ b.1) (x :: l)) :
    ∀ y ∈ l, x.1 + 51 ≤ y.1 := by
  induction l generalizing x with
  | nil => intro y hy; simp at hy
  | cons z zs ih =>
    intro y hy
    have h1 : x.1 + 51 ≤ z.1 := (List.chain'_cons.mp h).1
    rcases List.mem_cons.mp hy with rfl | hmem
    · exact h1
    · have h2 := ih z (List.chain'_cons.mp h).2 y hmem
      omega

theorem sep_filter_le (B : Nat) (E : List (Nat × List Nat)) :
    ∀ (lo k : Nat),
      List.Chain' (fun a b : Nat × List Nat => a.1 + 51 ≤ b.1) E →
      B ≤ lo + 51 * k →
      (E.filter (fun e => decide (lo ≤ e.1) && decide (e.1 < B))).length ≤ k := by
  induction E with
  | nil => intro lo k _ _; simp
  | cons x rest ih =>
    intro lo k hch hB
    have hrest : List.Chain' (fun a b : Nat × List Nat => a.1 + 51 ≤ b.1) rest :=
      hch.tail
    by_cases hx : lo ≤ x.1 ∧ x.1 < B
    · have hxb : (decide (lo ≤ x.1) && decide (x.1 < B)) = true := by
        simp [hx.1, hx.2]
      match k with
      | 0 => omega
      | k' + 1 =>
        have hall : ∀ y ∈ rest, x.1 + 51 ≤ y.1 := chain_sep_all x rest hch
        have hcongr : rest.filter (fun e => decide (lo ≤ e.1) && decide (e.1 < B))
            = rest.filter (fun e => decide (lo + 51 ≤ e.1) && decide (e.1 < B)) := by
          apply List.filter_congr
          intro y hy
          have hy51 := hall y hy
          rw [decide_eq_true (show lo ≤ y.1 by omega),
            decide_eq_true (show lo + 51 ≤ y.1 by omega)]
        have hrec := ih (lo + 51) k' hrest (by omega)
        have hstep :
            (List.filter (fun e => decide (lo ≤ e.1) && decide (e.1 < B))
              (x :: rest)).length
            = (List.filter (fun e => decide (lo + 51 ≤ e.1) && decide (e.1 < B))
                rest).length + 1 := by
          rw [List.filter_cons, if_pos hxb, List.length_cons, hcongr]
        omega
    · have hxb : (decide (lo ≤ x.1) && decide (x.1 < B)) = false := by
        rcases Decidable.not_and_iff_or_not.mp hx with h | h <;> simp [h]
      rw [List.filter_cons, if_neg (by rw [hxb]; exact Bool.false_ne_true)]
      exact ih lo k hrest hB

/-- C7: the Reporter, folded over any trace of decoded channel sets, emits a
subsequence of the trace (so each emission is exactly the channel set decoded
at that moment), updates its last-emission timestamp on each emission, and
emits only when more than 50 ms have elapsed since the previous emission:
consecutive emission times are at least 51 ms apart, so any 1000 ms window
holds at most 20 emissions. -/
theorem reporter_rate_limited (last0 : Nat) (trace : List (Nat × List Nat)) :
    List.Sublist (reporterRun last0 trace) trace ∧
    List.Chain' (fun a b : Nat × List Nat => a.1 + 51 ≤ b.1)
      (reporterRun last0 trace) ∧
    ∀ T, ((reporterRun last0 trace).filter
        (fun e => decide (T ≤ e.1) && decide (e.1 < T + 1000))).length ≤ 20 :=
  ⟨reporterRun_sublist trace last0, reporterRun_chain trace last0,
    fun T => sep_filter_le (T + 1000) (reporterRun last0 trace) T 20
      (reporterRun_chain trace last0) (by omega)⟩

/-! ### CRC single-bit-flip sensitivity (C8) -/

theorem shiftLeft_xor_distrib (a e n : Nat) :
    (a ^^^ e) <<< n = a <<< n ^^^ e <<< n := by
  apply Nat.eq_of_testBit_eq
  intro i
  simp only [Nat.testBit_shiftLeft, Nat.testBit_xor]
  by_cases h : n ≤ i
  · simp [h]
  · simp [h]

theorem xor_right_swap (p q r : Nat) : (p ^^^ q) ^^^ r = (p ^^^ r) ^^^ q := by
  apply Nat.eq_of_testBit_eq
  intro i
  simp only [Nat.testBit_xor]
  cases p.testBit i <;> cases q.testBit i <;> cases r.testBit i <;> rfl

theorem xor_mix (p q r s : Nat) : (p ^^^ q) ^^^ (r ^^^ s) = (p ^^^ r) ^^^ (q ^^^ s) := by
  apply Nat.eq_of_testBit_eq
  intro i
  simp only [Nat.testBit_xor]
  cases p.testBit i <;> cases q.testBit i <;> cases r.testBit i <;>
    cases s.testBit i <;> rfl

theorem crc8_shift_repr (x : Nat) :
    crc8_shift x = ((x <<< 1) &&& 0xFF) ^^^ (if x.testBit 7 = true then 0xD5 else 0) := by
  unfold crc8_shift
  by_cases h : x.testBit 7 = true
  · rw [if_pos (by rw [and_128_eq, if_pos h]; norm_num), if_pos h,
      Nat.and_xor_distrib_right, show (0xD5 &&& 0xFF : Nat) = 0xD5 from by decide]
  · rw [if_neg (by rw [and_128_eq, if_neg h]; norm_num), if_neg h, Nat.xor_zero]

theorem crc8_shift_xor (a e : Nat) :
    crc8_shift (a ^^^ e) = crc8_shift a ^^^ crc8_shift e := by
  rw [crc8_shift_repr (a ^^^ e), crc8_shift_repr a, crc8_shift_repr e,
    shiftLeft_xor_distrib, Nat.and_xor_distrib_right]
  have htae : (if (a ^^^ e).testBit 7 = true then 0xD5 else (0 : Nat))
      = (if a.testBit 7 = true then 0xD5 else 0)
        ^^^ (if e.testBit 7 = true then 0xD5 else 0) := by
    rw [Nat.testBit_xor]
    cases ha : a.testBit 7 <;> cases he : e.testBit 7 <;> simp
  rw [htae, xor_mix]

theorem crc8_shift_iter_xor (k : Nat) : ∀ a e : Nat,
    crc8_shift^[k] (a ^^^ e) = crc8_shift^[k] a ^^^ crc8_shift^[k] e := by
  induction k with
  | zero => intro a e; rfl
  | succ n ih =>
    intro a e
    rw [Function.iterate_succ_apply, Function.iterate_succ_apply,
      Function.iterate_succ_apply, crc8_shift_xor, ih]

theorem crc8_byte_err_acc (acc e b : Nat) :
    crc8_byte (acc ^^^ e) b = crc8_byte acc b ^^^ crc8_shift^[8] e := by
  unfold crc8_byte
  rw [xor_right_swap acc e b, crc8_shift_iter_xor 8 (acc ^^^ b) e]

theorem crc8_byte_err_byte (acc b e : Nat) :
    crc8_byte acc (b ^^^ e) = crc8_byte acc b ^^^ crc8_shift^[8] e := by
  unfold crc8_byte
  rw [← Nat.xor_assoc acc b e, crc8_shift_iter_xor 8 (acc ^^^ b) e]

theorem foldl_crc8_err (l : List Nat) : ∀ acc e : Nat,
    l.foldl crc8_byte (acc ^^^ e)
      = l.foldl crc8_byte acc ^^^ crc8_shift^[8 * l.length] e := by
  induction l with
  | nil =>
    intro acc e
    simp
  | cons b rest ih =>
    intro acc e
    have hlen : 8 * (b :: rest).length = 8 * rest.length + 8 := by
      rw [List.length_cons]
      ring
    rw [hlen, List.foldl_cons, List.foldl_cons, crc8_byte_err_acc acc e b,
      ih (crc8_byte acc b) (crc8_shift^[8] e), ← Function.iterate_add_apply]

theorem crc8_shift_lt (x : Nat) : crc8_shift x < 256 := by
  unfold crc8_shift
  split <;> exact lt_of_le_of_lt Nat.and_le_right (by norm_num)

set_option maxRecDepth 4000 in
theorem crc8_shift_nz : ∀ x, x < 256 → x ≠ 0 → crc8_shift x ≠ 0 := by decide

theorem crc8_shift_iter_nz (k : Nat) : ∀ x, x < 256 → x ≠ 0 →
    crc8_shift^[k] x ≠ 0 := by
  induction k with
  | zero => intro x _ hx; simpa using hx
  | succ n ih =>
    intro x hlt hx
    rw [Function.iterate_succ_apply]
    exact ih (crc8_shift x) (crc8_shift_lt x) (crc8_shift_nz x hlt hx)

/-- C8: `crc8_d5` is deterministic (a pure function of its input), and for
every byte sequence up to the maximum frame size, flipping any single bit of
any byte changes the resulting checksum (no single-bit-flip collision). -/
theorem crc8_single_bit_flip (B : List Nat) (i j : Nat) (hi : i < B.length)
    (hj : j < 8) (_hB : ∀ b ∈ B, b < 256) (_hlen : B.length ≤ MAX_FRAME) :
    crc8_d5 B = crc8_d5 B ∧
    crc8_d5 (B.set i (B.get ⟨i, hi⟩ ^^^ 2 ^ j)) ≠ crc8_d5 B := by
  refine ⟨rfl, ?_⟩
  have hdrop : B.drop i = B.get ⟨i, hi⟩ :: B.drop (i + 1) := by
    rw [List.drop_eq_getElem_cons hi, List.get_eq_getElem]
  have hdecomp := (List.take_append_drop i B).symm
  rw [hdrop] at hdecomp
  have hset : B.set i (B.get ⟨i, hi⟩ ^^^ 2 ^ j)
      = B.take i ++ (B.get ⟨i, hi⟩ ^^^ 2 ^ j) :: B.drop (i + 1) :=
    List.set_eq_take_cons_drop _ hi
  have hcrcB : crc8_d5 B
      = (B.drop (i + 1)).foldl crc8_byte
          (crc8_byte ((B.take i).foldl crc8_byte 0) (B.get ⟨i, hi⟩)) := by
    unfold crc8_d5
    conv_lhs => rw [hdecomp]
    rw [List.foldl_append, List.foldl_cons]
  have hcrcB' : crc8_d5 (B.set i (B.get ⟨i, hi⟩ ^^^ 2 ^ j))
      = (B.drop (i + 1)).foldl crc8_byte
          (crc8_byte ((B.take i).foldl crc8_byte 0) (B.get ⟨i, hi⟩ ^^^ 2 ^ j)) := by
    unfold crc8_d5
    rw [hset, List.foldl_append, List.foldl_cons]
  rw [hcrcB', hcrcB, crc8_byte_err_byte,
    foldl_crc8_err (B.drop (i + 1)) _ (crc8_shift^[8] (2 ^ j)),
    ← Function.iterate_add_apply]
  intro heq
  have hE : crc8_shift^[8 * (B.drop (i + 1)).length + 8] (2 ^ j) = 0 := by
    have h1 := xor_right_swap
      ((B.drop (i + 1)).foldl crc8_byte
        (crc8_byte ((B.take i).foldl crc8_byte 0) (B.get ⟨i, hi⟩)))
      (crc8_shift^[8 * (B.drop (i + 1)).length + 8] (2 ^ j))
      ((B.drop (i + 1)).foldl crc8_byte
        (crc8_byte ((B.take i).foldl crc8_byte 0) (B.get ⟨i, hi⟩)))
    rw [heq, Nat.xor_self, Nat.zero_xor] at h1
    exact h1.symm
  have hple : (2 : Nat) ^ j ≤ 2 ^ 7 := Nat.pow_le_pow_right (by norm_num) (by omega)
  have hplt : (2 : Nat) ^ j < 256 := lt_of_le_of_lt hple (by norm_num)
  exact crc8_shift_iter_nz _ (2 ^ j) hplt (Nat.two_pow_pos j).ne' hE

theorem crc8_single_bit_flip_witness :
    (0 : Nat) < ([0] : List Nat).length ∧ (0 : Nat) < 8 ∧
    (∀ b ∈ ([0] : List Nat), b < 256) ∧ ([0] : List Nat).length ≤ MAX_FRAME ∧
    (crc8_d5 [0] = crc8_d5 [0] ∧
      crc8_d5 (([0] : List Nat).set 0
        (([0] : List Nat).get ⟨0, Nat.zero_lt_one⟩ ^^^ 2 ^ 0)) ≠ crc8_d5 [0]) :=
  ⟨Nat.zero_lt_one, by norm_num, by simp, by simp [MAX_FRAME],
    crc8_single_bit_flip [0] 0 0 Nat.zero_lt_one (by norm_num) (by simp)
      (by simp [MAX_FRAME])⟩

/-! ### Channel unpacker: loop characterization (C4, C5) -/

theorem and_2047_eq_mod (x : Nat) : x &&& 0x7FF = x % 2048 := by
  have h : (0x7FF : Nat) = 2 ^ 11 - 1 := by norm_num
  rw [h, Nat.and_pow_two_sub_one_eq_mod]

theorem lor_low_high (lo hi n : Nat) (h : lo < 2 ^ n) :
    lo ||| hi <<< n = lo + hi * 2 ^ n := by
  rw [Nat.shiftLeft_eq, Nat.lor_comm, mul_comm hi (2 ^ n),
    ← Nat.mul_add_lt_is_or h hi]
  ring

theorem drainBits_full (bits bitbuf : Nat) (out : List Nat)
    (h : 16 ≤ out.length) :
    drainBits bits bitbuf out = (bits, bitbuf, out) := by
  rw [drainBits, dif_neg (by omega)]

theorem drainBits_none (bits bitbuf : Nat) (out : List Nat) (hb : bits < 3) :
    drainBits (bits + 8) bitbuf out = (bits + 8, bitbuf, out) := by
  rw [drainBits, dif_neg (by omega)]

theorem drainBits_once (bits bitbuf : Nat) (out : List Nat)
    (h3 : 3 ≤ bits) (hbits : bits ≤ 10) (hout : out.length < 16) :
    drainBits (bits + 8) bitbuf out
      = (bits - 3, bitbuf >>> 11, out ++ [bitbuf &&& 0x7FF]) := by
  rw [drainBits, dif_pos ⟨by omega, hout⟩, drainBits,
    dif_neg (by
      intro hcon
      omega)]
  have h1 : bits + 8 - 11 = bits - 3 := by omega
  rw [h1]

theorem unpackLoop_full (l : List Nat) : ∀ (bits bitbuf : Nat) (out : List Nat),
    16 ≤ out.length → unpackLoop l bits bitbuf out = out := by
  induction l with
  | nil => intro bits bitbuf out _; rfl
  | cons b rest ih =>
    intro bits bitbuf out h
    simp only [unpackLoop]
    rw [drainBits_full _ _ _ h]
    exact ih _ _ _ h

theorem chans_zero (N : Nat) : chans 0 N = [] := rfl

theorem chans_succ (k N : Nat) :
    chans (k + 1) N = (N &&& 0x7FF) :: chans k (N >>> 11) := by
  unfold chans
  rw [List.range_succ_eq_map, List.map_cons, List.map_map]
  congr 1
  apply List.map_congr_left
  intro i _
  simp only [Function.comp_apply]
  rw [← Nat.shiftRight_add]
  congr 2
  omega

theorem chans_step (lo S bits k : Nat) (_hlo : lo < 2 ^ (bits + 8))
    (h3 : 3 ≤ bits) :
    (lo &&& 0x7FF) :: chans k (lo >>> 11 + 2 ^ (bits - 3) * S)
      = chans (k + 1) (lo + 2 ^ (bits + 8) * S) := by
  have h2048 : (2048 : Nat) = 2 ^ 11 := by norm_num
  have hm : 2 ^ (bits + 8) = 2048 * 2 ^ (bits - 3) := by
    rw [h2048, ← pow_add]
    congr 1
    omega
  rw [chans_succ]
  congr 1
  · rw [and_2047_eq_mod, and_2047_eq_mod, hm, mul_assoc,
      Nat.add_mul_mod_self_left]
  · congr 1
    rw [Nat.shiftRight_eq_div_pow, Nat.shiftRight_eq_div_pow]
    have hrw : lo + 2 ^ (bits + 8) * S = lo + (2 ^ (bits - 3) * S) * 2 ^ 11 := by
      rw [hm, h2048]
      ring
    rw [hrw, Nat.add_mul_div_right _ _ (by norm_num : 0 < 2 ^ 11)]

theorem unpackLoop_spec (l : List Nat) : ∀ (bits bitbuf : Nat) (out : List Nat),
    (∀ b ∈ l, b < 256) → bitbuf < 2 ^ bits → bits ≤ 10 → out.length ≤ 16 →
    unpackLoop l bits bitbuf out
      = out ++ chans (min (16 - out.length) ((bits + 8 * l.length) / 11))
          (bitbuf + 2 ^ bits * streamNum l) := by
  induction l with
  | nil =>
    intro bits bitbuf out _ _ hbits _
    simp only [unpackLoop, streamNum, List.length_nil, Nat.mul_zero, Nat.add_zero]
    rw [Nat.div_eq_of_lt (by omega), Nat.min_zero, chans_zero, List.append_nil]
  | cons b rest ih =>
    intro bits bitbuf out hbytes hbuf hbits hout
    have hb : b < 256 := hbytes b (by simp)
    have hrest : ∀ x ∈ rest, x < 256 := fun x hx => hbytes x (by simp [hx])
    have hmerge : bitbuf ||| b <<< bits = bitbuf + b * 2 ^ bits :=
      lor_low_high bitbuf b bits hbuf
    have hmlt : bitbuf + b * 2 ^ bits < 2 ^ (bits + 8) := by
      calc bitbuf + b * 2 ^ bits < 2 ^ bits + b * 2 ^ bits := by omega
        _ = (b + 1) * 2 ^ bits := by ring
        _ ≤ 256 * 2 ^ bits := Nat.mul_le_mul_right _ (by omega)
        _ = 2 ^ (bits + 8) := by
          rw [pow_add]
          ring
    have hstream : bitbuf + 2 ^ bits * streamNum (b :: rest)
        = (bitbuf + b * 2 ^ bits) + 2 ^ (bits + 8) * streamNum rest := by
      simp only [streamNum]
      rw [pow_add]
      ring
    have hcount : bits + 8 * (b :: rest).length = (bits + 8) + 8 * rest.length := by
      rw [List.length_cons]
      ring
    by_cases hfull : out.length = 16
    · rw [unpackLoop_full (b :: rest) bits bitbuf out (by omega)]
      rw [hfull]
      simp [chans_zero]
    · have hlt16 : out.length < 16 := by omega
      by_cases hsmall : bits < 3
      · -- the byte does not complete an 11-bit field
        have hstep : unpackLoop (b :: rest) bits bitbuf out
            = unpackLoop rest (bits + 8) (bitbuf + b * 2 ^ bits) out := by
          simp only [unpackLoop]
          rw [hmerge, drainBits_none bits _ out hsmall]
        rw [hstep,
          ih (bits + 8) (bitbuf + b * 2 ^ bits) out hrest hmlt (by omega) hout,
          hstream, hcount]
      · -- the byte completes exactly one 11-bit field
        have hstep : unpackLoop (b :: rest) bits bitbuf out
            = unpackLoop rest (bits - 3) ((bitbuf + b * 2 ^ bits) >>> 11)
                (out ++ [(bitbuf + b * 2 ^ bits) &&& 0x7FF]) := by
          simp only [unpackLoop]
          rw [hmerge,
            drainBits_once bits (bitbuf + b * 2 ^ bits) out (by omega) hbits hlt16]
        have hbuflt : (bitbuf + b * 2 ^ bits) >>> 11 < 2 ^ (bits - 3) := by
          rw [Nat.shiftRight_eq_div_pow]
          rw [Nat.div_lt_iff_lt_mul (by norm_num : 0 < 2 ^ 11)]
          have hpow : 2 ^ (bits - 3) * 2 ^ 11 = 2 ^ (bits + 8) := by
            rw [← pow_add]
            congr 1
            omega
          rw [hpow]
          exact hmlt
        have hlen2 : (out ++ [(bitbuf + b * 2 ^ bits) &&& 0x7FF]).length
            = out.length + 1 := by simp
        rw [hstep,
          ih (bits - 3) ((bitbuf + b * 2 ^ bits) >>> 11)
            (out ++ [(bitbuf + b * 2 ^ bits) &&& 0x7FF]) hrest hbuflt (by omega)
            (by rw [hlen2]; omega),
          hlen2, List.append_assoc]
        congr 1
        rw [hstream, hcount]
        have hc2 : bits + 8 + 8 * rest.length = (bits - 3 + 8 * rest.length) + 11 := by
          omega
        rw [hc2, Nat.add_div_right _ (by norm_num)]
        have hminsucc : min (16 - out.length) ((bits - 3 + 8 * rest.length) / 11 + 1)
            = min (16 - (out.length + 1)) ((bits - 3 + 8 * rest.length) / 11) + 1 := by
          have h1 : 16 - out.length = (16 - (out.length + 1)) + 1 := by omega
          rw [h1, Nat.succ_min_succ]
        rw [hminsucc, ← chans_step _ _ bits _ hmlt (by omega), List.singleton_append]

theorem unpack_eq_chans (p : List Nat) (hp : ∀ b ∈ p, b < 256) :
    unpackLoop p 0 0 [] = chans (min 16 (8 * p.length / 11)) (streamNum p) := by
  have h := unpackLoop_spec p 0 0 [] hp (by norm_num) (by norm_num) (by simp)
  simpa using h

/-- C5: for every payload of bytes, the channel unpacker returns exactly 16
entries, each in 0..2047; the entries are exactly the 11-bit fields the
payload's bits provide (`min 16 (8·len/11)` of them, i.e. all 16 for a
22-byte payload), and every slot that could not be filled from the input
bits is set to the neutral tick value 992 rather than left unset. -/
theorem unpack_16ch_invariant (p : List Nat) (hp : ∀ b ∈ p, b < 256) :
    (unpack_16ch_11bit p).length = 16 ∧
    (∀ x ∈ unpack_16ch_11bit p, x ≤ 2047) ∧
    unpack_16ch_11bit p
      = chans (min 16 (8 * p.length / 11)) (streamNum p)
        ++ List.replicate (16 - min 16 (8 * p.length / 11)) 992 := by
  have hloop := unpack_eq_chans p hp
  have hklen : (chans (min 16 (8 * p.length / 11)) (streamNum p)).length
      = min 16 (8 * p.length / 11) := by
    simp [chans]
  have hk16 : min 16 (8 * p.length / 11) ≤ 16 := Nat.min_le_left _ _
  have hr : unpack_16ch_11bit p
      = chans (min 16 (8 * p.length / 11)) (streamNum p)
        ++ List.replicate (16 - min 16 (8 * p.length / 11)) 992 := by
    simp only [unpack_16ch_11bit]
    rw [hloop, hklen]
    apply List.take_of_length_le
    rw [List.length_append, hklen, List.length_replicate]
    omega
  refine ⟨?_, ?_, hr⟩
  · rw [hr, List.length_append, hklen, List.length_replicate]
    omega
  · rw [hr]
    intro x hx
    rcases List.mem_append.mp hx with hx | hx
    · obtain ⟨i, _, rfl⟩ := List.mem_map.mp hx
      exact Nat.and_le_right
    · rw [List.eq_of_mem_replicate hx]
      norm_num

theorem unpack_16ch_invariant_witness :
    (∀ b ∈ List.replicate 22 (0 : Nat), b < 256) ∧
    ((unpack_16ch_11bit (List.replicate 22 0)).length = 16 ∧
      (∀ x ∈ unpack_16ch_11bit (List.replicate 22 0), x ≤ 2047) ∧
      unpack_16ch_11bit (List.replicate 22 0)
        = chans (min 16 (8 * (List.replicate 22 (0 : Nat)).length / 11))
            (streamNum (List.replicate 22 0))
          ++ List.replicate
              (16 - min 16 (8 * (List.replicate 22 (0 : Nat)).length / 11)) 992) :=
  ⟨fun b hb => by rw [List.eq_of_mem_replicate hb]; norm_num,
    unpack_16ch_invariant (List.replicate 22 0)
      (fun b hb => by rw [List.eq_of_mem_replicate hb]; norm_num)⟩

/-! ### Round-trip law (C4) -/

theorem chsNum_lt (chs : List Nat) (h : ∀ c ∈ chs, c < 2048) :
    chsNum chs < 2 ^ (11 * chs.length) := by
  induction chs with
  | nil => simp [chsNum]
  | cons c rest ih =>
    have hc : c < 2048 := h c (by simp)
    have hrest := ih (fun x hx => h x (by simp [hx]))
    simp only [chsNum, List.length_cons]
    have hp : 2 ^ (11 * (rest.length + 1)) = 2048 * 2 ^ (11 * rest.length) := by
      rw [show 11 * (rest.length + 1) = 11 + 11 * rest.length by ring, pow_add]
      norm_num
    rw [hp]
    calc c + 2048 * chsNum rest < 2048 + 2048 * chsNum rest := by omega
      _ = 2048 * (chsNum rest + 1) := by ring
      _ ≤ 2048 * 2 ^ (11 * rest.length) := Nat.mul_le_mul_left _ (by omega)

theorem chans_chsNum (chs : List Nat) (h : ∀ c ∈ chs, c < 2048) :
    chans chs.length (chsNum chs) = chs := by
  induction chs with
  | nil => rfl
  | cons c rest ih =>
    have hc : c < 2048 := h c (by simp)
    simp only [List.length_cons]
    rw [chans_succ]
    congr 1
    · rw [and_2047_eq_mod]
      simp only [chsNum]
      rw [Nat.add_mul_mod_self_left]
      exact Nat.mod_eq_of_lt hc
    · have hsh : chsNum (c :: rest) >>> 11 = chsNum rest := by
        rw [Nat.shiftRight_eq_div_pow]
        simp only [chsNum]
        rw [show (2 : Nat) ^ 11 = 2048 by norm_num,
          Nat.add_mul_div_left _ _ (by norm_num : 0 < 2048),
          Nat.div_eq_of_lt hc, Nat.zero_add]
      rw [hsh]
      exact ih (fun x hx => h x (by simp [hx]))

theorem streamNum_bytesOf (k : Nat) : ∀ N, N < 2 ^ (8 * k) →
    streamNum ((List.range k).map (fun j => (N >>> (8 * j)) &&& 0xFF)) = N := by
  induction k with
  | zero =>
    intro N hN
    simp only [Nat.mul_zero, pow_zero] at hN
    simp only [List.range_zero, List.map_nil, streamNum]
    omega
  | succ n ih =>
    intro N hN
    rw [List.range_succ_eq_map, List.map_cons, List.map_map]
    simp only [streamNum]
    have hhead : (N >>> (8 * 0)) &&& 0xFF = N % 256 := by
      rw [Nat.mul_zero, Nat.shiftRight_zero, and_255_eq_mod]
    have htail :
        List.map ((fun j => (N >>> (8 * j)) &&& 0xFF) ∘ Nat.succ) (List.range n)
          = List.map (fun j => ((N >>> 8) >>> (8 * j)) &&& 0xFF) (List.range n) := by
      apply List.map_congr_left
      intro i _
      simp only [Function.comp_apply]
      rw [← Nat.shiftRight_add]
      congr 2
      omega
    have hb2 : N >>> 8 < 2 ^ (8 * n) := by
      rw [Nat.shiftRight_eq_div_pow,
        Nat.div_lt_iff_lt_mul (by norm_num : 0 < (2 : Nat) ^ 8)]
      calc N < 2 ^ (8 * (n + 1)) := hN
        _ = 2 ^ (8 * n) * 2 ^ 8 := by
            rw [← pow_add]
            congr 1
    rw [hhead, htail, ih (N >>> 8) hb2, Nat.shiftRight_eq_div_pow,
      show (2 : Nat) ^ 8 = 256 by norm_num]
    exact Nat.mod_add_div N 256

theorem pack_bytes_lt (chs : List Nat) : ∀ b ∈ pack_16ch_11bit chs, b < 256 := by
  intro b hb
  unfold pack_16ch_11bit at hb
  obtain ⟨j, _, rfl⟩ := List.mem_map.mp hb
  exact lt_of_le_of_lt Nat.and_le_right (by norm_num)

theorem pack_length (chs : List Nat) : (pack_16ch_11bit chs).length = 22 := by
  simp [pack_16ch_11bit]

/-- C4: for every channel set of 16 values each in 0..2047, packing it into a
22-byte payload via the inverse of the little-endian 11-bit scheme and then
unpacking that payload with the source's `unpack_16ch_11bit` reproduces the
channel set exactly (round-trip law). -/
theorem unpack_pack_roundtrip (chs : List Nat) (hlen : chs.length = 16)
    (hrange : ∀ c ∈ chs, c ≤ 2047) :
    unpack_16ch_11bit (pack_16ch_11bit chs) = chs := by
  have hr : ∀ c ∈ chs, c < 2048 := fun c hc => by
    have := hrange c hc
    omega
  have hN : chsNum chs < 2 ^ (8 * 22) := by
    have h1 := chsNum_lt chs hr
    rw [hlen] at h1
    calc chsNum chs < 2 ^ (11 * 16) := h1
      _ ≤ 2 ^ (8 * 22) := by norm_num
  have hstream : streamNum (pack_16ch_11bit chs) = chsNum chs := by
    unfold pack_16ch_11bit
    exact streamNum_bytesOf 22 (chsNum chs) hN
  have hloop := unpack_eq_chans (pack_16ch_11bit chs) (pack_bytes_lt chs)
  simp only [unpack_16ch_11bit]
  rw [hloop, pack_length, hstream,
    show min 16 (8 * 22 / 11) = 16 by norm_num]
  have hchans : chans 16 (chsNum chs) = chs := by
    rw [← hlen]
    exact chans_chsNum chs hr
  rw [hchans, hlen]
  simp [List.take_of_length_le, hlen]

theorem unpack_pack_roundtrip_witness :
    (List.replicate 16 (992 : Nat)).length = 16 ∧
    (∀ c ∈ List.replicate 16 (992 : Nat), c ≤ 2047) ∧
    unpack_16ch_11bit (pack_16ch_11bit (List.replicate 16 992))
      = List.replicate 16 992 :=
  ⟨by simp,
    fun c hc => by rw [List.eq_of_mem_replicate hc]; norm_num,
    unpack_pack_roundtrip (List.replicate 16 992) (by simp)
      (fun c hc => by rw [List.eq_of_mem_replicate hc]; norm_num)⟩
